import Mathlib

/-!
Verification of `src/copy_file_and_check_duplicates_md5.py`
(class `UnixStyleFileMerger`): a content-deduplicating recursive copy tool
with a dry-run mode, an execute mode, MD5-based duplicate detection and a
rename-on-collision policy.

Modelling conventions (shallow embedding of the Python source):

* A file's byte stream is abstracted as `Content`; MD5 hashing is modelled
  as the identity on content (the design treats hash collisions as
  impossible), and `calculate_md5` returns `none` exactly for files that
  cannot be read, mirroring the `try/except` in the source that returns
  `None` on any read failure.
* A relative path is a triple (directory part, filename stem, filename
  suffix), mirroring the `pathlib` `parent`/`stem`/`suffix` decomposition
  that `_unique_name` operates on.
* A directory tree (source or target) is an association list from relative
  paths to file entries; `Fs.find` returns the head-most binding, so consing
  a binding acts as create-or-overwrite.  `os.walk` enumeration order is the
  list order.  Directory creation (`mkdir(parents=True, exist_ok=True)`) is
  invisible in this flat-path model.
* `__init__` places the log file `merge_<timestamp>.log` inside the target
  directory (`self.log_file = self.target / ...`), so `self.log` mutates the
  target tree.  The text of log lines is irrelevant to every property
  proved here, so the log file's content is the opaque `Content.logData`
  and `writeLog` (one `self.log` call) is idempotent on the modelled
  filesystem: it creates the log file if the model does not have it yet and
  leaves the state fixed afterwards.  It is applied where a phase's first
  `self.log` runs; the later `self.log` calls of the same phase then leave
  the modelled filesystem unchanged.
* The interactive `input()` confirmations of `execute` and the free-space
  number returned by `shutil.disk_usage` are parameters of `execute`.
-/

/-- The byte content of a file: either ordinary user bytes or the opaque
content of the tool's own log file (log lines' text never matters here, and
keeping the constructors apart makes the model's "hash" collision-free
between user data and the log). -/
inductive Content where
  | user (bytes : String)
  | logData
deriving DecidableEq

/-- The size in bytes reported by `stat().st_size`, determined by the
content. -/
def Content.size : Content → Nat
  | .user s => s.length
  | .logData => 0

/-- A file as the filesystem presents it: its content, and whether reading
it succeeds (permission, vanished file, I/O errors are all "not readable"). -/
structure FileEntry where
  content : Content
  readable : Bool
deriving DecidableEq

/-- A path relative to the source/target root, split as `pathlib` does into
the directory part, the final component's stem and its suffix; the file name
is `stem ++ suffix`. -/
structure RelPath where
  dir : String
  stem : String
  suffix : String
deriving DecidableEq

/-- A directory tree: an association list from relative paths to files. -/
abbrev Fs := List (RelPath × FileEntry)

/-- Lookup in a tree: the head-most binding for the path, if any
(`target_path.exists()` is `(Fs.find fs p).isSome`). -/
def Fs.find : Fs → RelPath → Option FileEntry
  | [], _ => none
  | (q, e) :: fs, p => if q = p then some e else Fs.find fs p

/-- `calculate_md5`: streams the file and returns its content hash; on any
read failure the source catches the exception, logs it and returns `None`.
With hashing modelled as content identity this is `none` exactly for
unreadable files. -/
def calculate_md5 (e : FileEntry) : Option Content :=
  if e.readable then some e.content else none

/-- The `self.stats` dictionary of counters. -/
structure Stats where
  source_files : Nat
  target_files : Nat
  duplicates : Nat
  copied : Nat
  errors : Nat
  total_size : Nat
deriving DecidableEq

/-- The zeroed statistics `__init__` starts with. -/
def Stats.init : Stats := ⟨0, 0, 0, 0, 0, 0⟩

/-- The mutable state of one `UnixStyleFileMerger`: the log file's path
(timestamped, inside the target), the target tree, the MD5 index
`self.target_md5s` and the statistics. -/
structure MergerSt where
  logPath : RelPath
  targetFs : Fs
  target_md5s : List Content
  stats : Stats
deriving DecidableEq

/-- One `self.log` call, as far as the filesystem is concerned: the line is
appended to `self.log_file`, which lives under the target root.  Modelled
idempotently: the log file appears (with opaque content) on the first call
and the state is fixed from then on. -/
def writeLog (st : MergerSt) : MergerSt :=
  if Fs.find st.targetFs st.logPath = some ⟨Content.logData, true⟩ then st
  else { st with targetFs := (st.logPath, ⟨Content.logData, true⟩) :: st.targetFs }

/-- `self.target_md5s.add(md5)`: set insertion on the MD5 index. -/
def addHash (h : Content) (idx : List Content) : List Content :=
  if h ∈ idx then idx else h :: idx

/-- The per-file body of `scan_target`'s walk: hash the file and insert the
hash when it could be computed, and count the file either way. -/
def scanStep (st : MergerSt) (fe : RelPath × FileEntry) : MergerSt :=
  let st1 :=
    match calculate_md5 fe.2 with
    | some h => { st with target_md5s := addHash h st.target_md5s }
    | none => st
  { st1 with stats := { st1.stats with target_files := st1.stats.target_files + 1 } }

/-- The walk of `scan_target` over a list of target files. -/
def scanFold (st : MergerSt) (l : List (RelPath × FileEntry)) : MergerSt :=
  l.foldl scanStep st

/-- `scan_target`: logs (which creates the log file if missing), then walks
the target tree — including the just-created log file — hashing every file
into `self.target_md5s` and counting them into `stats['target_files']`. -/
def scanTarget (st : MergerSt) : MergerSt :=
  scanFold (writeLog st) (writeLog st).targetFs

/-- One entry of `dry_run`'s `to_copy`/`duplicates` lists: the file (its
relative path for duplicates, its absolute source path for `to_copy` — both
are the relative path in this model) and its size. -/
structure PlanEntry where
  path : RelPath
  size : Nat
deriving DecidableEq

/-- What `dry_run` accumulates: the merger state plus the two
classification lists. -/
structure DryRunResult where
  st : MergerSt
  duplicates : List PlanEntry
  to_copy : List PlanEntry
deriving DecidableEq

/-- The per-file body of `dry_run`'s analysis walk.  Note the shape of the
source: everything is guarded by `if md5:` — a file whose hash cannot be
computed is skipped with no counter touched at all (in particular
`stats['errors']` is not incremented in this pass). -/
def dryStep (r : DryRunResult) (f : RelPath × FileEntry) : DryRunResult :=
  let size := f.2.content.size
  match calculate_md5 f.2 with
  | none => r
  | some h =>
    let stats1 := { r.st.stats with source_files := r.st.stats.source_files + 1 }
    if h ∈ r.st.target_md5s then
      { r with
          st := { r.st with stats := { stats1 with duplicates := stats1.duplicates + 1 } },
          duplicates := r.duplicates ++ [⟨f.1, size⟩] }
    else
      { r with
          st := { r.st with stats := { stats1 with total_size := stats1.total_size + size } },
          to_copy := r.to_copy ++ [⟨f.1, size⟩] }

/-- `dry_run`: log the banner, scan the target, then classify every source
file.  The remainder of the function (space report, example listings) only
logs, and the function returns `True`; the classification lists and final
state are the observable result. -/
def dry_run (source : List (RelPath × FileEntry)) (st : MergerSt) : DryRunResult :=
  source.foldl dryStep { st := scanTarget (writeLog st), duplicates := [], to_copy := [] }

/-- The `--dry-run` path of `main`: a fresh `UnixStyleFileMerger` (empty MD5
index, zeroed statistics) runs `dry_run`. -/
def mainDryRun (logPath : RelPath) (targetFs : Fs)
    (source : List (RelPath × FileEntry)) : DryRunResult :=
  dry_run source ⟨logPath, targetFs, [], Stats.init⟩

/-! ### The `_unique_name` rename loop

`Nat.repr` (what Python's `f"{stem}_{counter}{suffix}"` renders `counter`
with) is proved injective below, which makes the candidate names pairwise
distinct, so the `while True` loop of `_unique_name` always finds a free
name after at most `fs.length + 1` candidates; the fuelled `uniqueNameAux`
with that fuel is therefore an exact model of the unbounded loop. -/

/-- The candidate `parent / f"{stem}_{counter}{suffix}"`. -/
def renameCand (p : RelPath) (counter : Nat) : RelPath :=
  ⟨p.dir, p.stem ++ "_" ++ Nat.repr counter, p.suffix⟩

/-- The `while True` loop of `_unique_name`, trying counters `k, k + 1, …`
with enough fuel (the out-of-fuel value is never reached when
`fuel ≥ fs.length + 1`, see `uniqueNameAux_spec`). -/
def uniqueNameAux (fs : Fs) (p : RelPath) : Nat → Nat → RelPath
  | 0, k => renameCand p k
  | fuel + 1, k =>
    if Fs.find fs (renameCand p k) = none then renameCand p k
    else uniqueNameAux fs p fuel (k + 1)

/-- `_unique_name`: the first unused of `stem_1`, `stem_2`, … (original
suffix kept, same directory). -/
def uniqueName (fs : Fs) (p : RelPath) : RelPath :=
  uniqueNameAux fs p (fs.length + 1) 1

/-- What `execute` did with one source file: counted an error, skipped a
duplicate, or copied it to `dest`. -/
inductive Outcome where
  | err
  | dup
  | copiedTo (dest : RelPath)
deriving DecidableEq

/-- The tail of `execute`'s per-file body once the file is known to be new:
`shutil.copy2` to `dest`, `self.target_md5s.add(md5)`, `copied += 1`, then
the progress report.  The progress report runs when `copied` reaches a
multiple of 100 and its log line reads `self.source_files` — an attribute no
method ever assigns — so it raises `AttributeError`; the per-file `except`
catches it and does `errors += 1`.  The copy, the index insertion and the
copied counter all stand by then. -/
def finishCopy (st : MergerSt) (f : RelPath × FileEntry) (h : Content)
    (dest : RelPath) : MergerSt × Outcome :=
  let copied := st.stats.copied + 1
  let errors := if copied % 100 = 0 then st.stats.errors + 1 else st.stats.errors
  ({ st with
      targetFs := (dest, f.2) :: st.targetFs,
      target_md5s := addHash h st.target_md5s,
      stats := { st.stats with copied := copied, errors := errors } },
   Outcome.copiedTo dest)

/-- One iteration of `execute`'s copy loop (the body of the inner `try`,
with the per-file `except` folded into the error cases): hash the source
file; skip it as an error if the hash fails; skip it as a duplicate if the
hash is already indexed; otherwise resolve the destination — the source's
relative path, re-checked against an existing file there (same content:
duplicate; different content: `_unique_name`) — and copy. -/
def processFile (st : MergerSt) (f : RelPath × FileEntry) : MergerSt × Outcome :=
  match calculate_md5 f.2 with
  | none =>
    ({ st with stats := { st.stats with errors := st.stats.errors + 1 } }, Outcome.err)
  | some h =>
    if h ∈ st.target_md5s then
      ({ st with stats := { st.stats with duplicates := st.stats.duplicates + 1 } },
       Outcome.dup)
    else
      match Fs.find st.targetFs f.1 with
      | some te =>
        if calculate_md5 te = some h then
          ({ st with stats := { st.stats with duplicates := st.stats.duplicates + 1 } },
           Outcome.dup)
        else
          finishCopy st f h (uniqueName st.targetFs f.1)
      | none => finishCopy st f h f.1

/-- `execute`'s walk over the source tree, also recording the per-file
outcomes in walk order. -/
def executeLoop (st : MergerSt) : List (RelPath × FileEntry) → MergerSt × List Outcome
  | [] => (st, [])
  | f :: fs =>
    let step := processFile st f
    let rest := executeLoop step.1 fs
    (rest.1, step.2 :: rest.2)

/-- The space check's `sufficient` verdict: the negation of
`free < self.stats['total_size']`. -/
def spaceSufficient (freeBytes total : Nat) : Bool :=
  !(freeBytes < total)

/-- The shortfall the warning reports (the source displays
`(total_size - free) / 1024**3` GB; the byte quantity is what matters). -/
def spaceShortfall (freeBytes total : Nat) : Nat :=
  total - freeBytes

/-- `execute`: banner log, confirmation prompt, free-space check with a
second prompt when space is short, then the copy loop.  `confirmRun` and
`confirmSpace` are the user's two `j/n` answers and `freeBytes` is what
`shutil.disk_usage(self.target).free` reports.  Declining either prompt
returns `False` without copying.  Note `execute` never calls
`scan_target`. -/
def execute (st : MergerSt) (source : List (RelPath × FileEntry))
    (freeBytes : Nat) (confirmRun confirmSpace : Bool) :
    Bool × MergerSt × List Outcome :=
  let st1 := writeLog st
  if !confirmRun then (false, st1, [])
  else if freeBytes < st1.stats.total_size && !confirmSpace then (false, st1, [])
  else
    let r := executeLoop st1 source
    (true, r.1, r.2)

/-- The `--execute` path of `main`: a fresh `UnixStyleFileMerger` — empty
MD5 index, zeroed statistics — runs `execute` directly; `scan_target` is
never invoked on this path. -/
def mainExecute (logPath : RelPath) (targetFs : Fs)
    (source : List (RelPath × FileEntry)) (freeBytes : Nat)
    (confirmRun confirmSpace : Bool) : Bool × MergerSt × List Outcome :=
  execute ⟨logPath, targetFs, [], Stats.init⟩ source freeBytes confirmRun confirmSpace

/-! ### `Nat.repr` is injective

Needed to justify the termination of `_unique_name`'s rename loop: the
candidate names `stem_1`, `stem_2`, … are pairwise distinct. -/

/-- The numeric value of a decimal digit character. -/
def chVal (c : Char) : Nat := c.toNat - 48

/-- The number a list of decimal digit characters denotes. -/
def strVal (l : List Char) : Nat := l.foldl (fun a c => 10 * a + chVal c) 0

/-! ### Concrete inputs for the closed instances -/

/-- A concrete timestamped log path, `merge_20260101_000000.log` at the
target root. -/
def logP : RelPath := ⟨"", "merge_20260101_000000", ".log"⟩

/-- Target file `orig/x.bin` with content Z (claim C1's scenario). -/
def origX : RelPath × FileEntry := (⟨"orig", "x", ".bin"⟩, ⟨Content.user "Z", true⟩)

/-- Source file `copy/x.bin` with the same content Z at a different
relative path (claim C1's scenario). -/
def copyX : RelPath × FileEntry := (⟨"copy", "x", ".bin"⟩, ⟨Content.user "Z", true⟩)

/-- Source file `a.txt` with content Z. -/
def fileA : RelPath × FileEntry := (⟨"", "a", ".txt"⟩, ⟨Content.user "Z", true⟩)

/-- Source file `b.txt`, same content Z, different name. -/
def fileB : RelPath × FileEntry := (⟨"", "b", ".txt"⟩, ⟨Content.user "Z", true⟩)

/-- An unreadable source file (its hash cannot be computed). -/
def badFile : RelPath × FileEntry := (⟨"", "bad", ".bin"⟩, ⟨Content.user "B", false⟩)

/-- Target file `a.txt` with content X (claim C5's scenario). -/
def tgtA : RelPath × FileEntry := (⟨"", "a", ".txt"⟩, ⟨Content.user "X", true⟩)

/-- Source file `a.txt` with different content Y (claim C5's scenario). -/
def srcA : RelPath × FileEntry := (⟨"", "a", ".txt"⟩, ⟨Content.user "Y", true⟩)

/-- 100 source files with pairwise distinct names and contents. -/
def manyFiles : List (RelPath × FileEntry) :=
  (List.range 100).map (fun i => (⟨"", Nat.repr i, ""⟩, ⟨Content.user (Nat.repr i), true⟩))

/-- A fresh merger whose planning statistics show 10 GB to copy (claim C9's
scenario). -/
def st10GB : MergerSt := ⟨logP, [], [], ⟨0, 0, 0, 0, 0, 10 * 1024 ^ 3⟩⟩

/-- A fresh merger over an empty target, as `main` constructs it. -/
def stFresh : MergerSt := ⟨logP, [], [], Stats.init⟩

/-- A fresh dry-run accumulator. -/
def rFresh : DryRunResult := ⟨stFresh, [], []⟩

/-- A fresh merger over a target holding just `a.txt` with content X
(claim C5's scenario). -/
def stTgtA : MergerSt := ⟨logP, [tgtA], [], Stats.init⟩

theorem toDigitsCore_append (b : Nat) :
    ∀ fuel n ds, Nat.toDigitsCore b fuel n ds = Nat.toDigitsCore b fuel n [] ++ ds := by
  intro fuel
  induction fuel with
  | zero => intro n ds; simp [Nat.toDigitsCore]
  | succ fuel ih =>
    intro n ds
    by_cases h : n / b = 0 <;> simp only [Nat.toDigitsCore, h, if_true, if_false]
    · simp
    · rw [ih (n / b) (Nat.digitChar (n % b) :: ds), ih (n / b) [Nat.digitChar (n % b)]]
      simp

theorem toDigitsCore_fuel_irrelevant :
    ∀ fuel1 fuel2 n, n < fuel1 → n < fuel2 →
      Nat.toDigitsCore 10 fuel1 n [] = Nat.toDigitsCore 10 fuel2 n [] := by
  intro fuel1
  induction fuel1 with
  | zero => intro fuel2 n h1; omega
  | succ f1 ih =>
    intro fuel2 n h1 h2
    match fuel2, h2 with
    | f2 + 1, h2 =>
      by_cases h : n / 10 = 0 <;> simp only [Nat.toDigitsCore, h, if_true, if_false]
      · have hn : 0 < n := Nat.pos_of_ne_zero (fun hz => by simp [hz] at h)
        have hlt : n / 10 < n := Nat.div_lt_self hn (by norm_num)
        rw [toDigitsCore_append 10 f1, toDigitsCore_append 10 f2]
        rw [ih f2 (n / 10) (by omega) (by omega)]

theorem toDigits_lt (n : Nat) (h : n < 10) : Nat.toDigits 10 n = [Nat.digitChar n] := by
  have h0 : n / 10 = 0 := Nat.div_eq_of_lt h
  have h1 : n % 10 = n := Nat.mod_eq_of_lt h
  simp [Nat.toDigits, Nat.toDigitsCore, h0, h1]

theorem toDigits_ge (n : Nat) (h : 10 ≤ n) :
    Nat.toDigits 10 n = Nat.toDigits 10 (n / 10) ++ [Nat.digitChar (n % 10)] := by
  have h0 : n / 10 ≠ 0 := by
    intro hz
    have := Nat.div_eq_of_lt (show n < 10 by omega)
    omega
  show Nat.toDigitsCore 10 (n + 1) n [] = _
  simp only [Nat.toDigitsCore, h0, if_false]
  rw [toDigitsCore_append 10 n (n / 10) [Nat.digitChar (n % 10)]]
  have hlt : n / 10 < n := Nat.div_lt_self (by omega) (by norm_num)
  rw [toDigitsCore_fuel_irrelevant n (n / 10 + 1) (n / 10) hlt (Nat.lt_succ_self _)]
  rfl

theorem chVal_digitChar (m : Nat) (h : m < 10) : chVal (Nat.digitChar m) = m := by
  interval_cases m <;> rfl

theorem strVal_toDigits (n : Nat) : strVal (Nat.toDigits 10 n) = n := by
  induction n using Nat.strong_induction_on with
  | _ n ih =>
    by_cases h : n < 10
    · rw [toDigits_lt n h]
      simp [strVal, chVal_digitChar n h]
    · push_neg at h
      rw [toDigits_ge n h]
      have hlt : n / 10 < n := Nat.div_lt_self (by omega) (by norm_num)
      have hv := ih (n / 10) hlt
      simp only [strVal, List.foldl_append, List.foldl_cons, List.foldl_nil] at hv ⊢
      rw [hv, chVal_digitChar (n % 10) (Nat.mod_lt n (by norm_num))]
      omega

theorem Nat.repr_injective : Function.Injective Nat.repr := by
  intro m n h
  have hd : (Nat.toDigits 10 m) = (Nat.toDigits 10 n) :=
    congrArg String.data h
  have := congrArg strVal hd
  rwa [strVal_toDigits, strVal_toDigits] at this

/-! ### Characterisation of `_unique_name` -/

theorem String.data_injective : Function.Injective String.data := by
  intro s t h
  cases s; cases t; exact congrArg String.mk h

theorem renameCand_injective (p : RelPath) : Function.Injective (renameCand p) := by
  intro k1 k2 h
  have hstem : p.stem ++ "_" ++ Nat.repr k1 = p.stem ++ "_" ++ Nat.repr k2 :=
    congrArg RelPath.stem h
  have hdata := congrArg String.data hstem
  simp only [String.data_append] at hdata
  have h1 : (Nat.repr k1).data = (Nat.repr k2).data := List.append_cancel_left hdata
  exact Nat.repr_injective (String.data_injective h1)

theorem find_ne_none_mem_keys (fs : Fs) (p : RelPath) (h : Fs.find fs p ≠ none) :
    p ∈ fs.map Prod.fst := by
  induction fs with
  | nil => simp [Fs.find] at h
  | cons fe fs ih =>
    by_cases hq : fe.1 = p
    · simp [hq]
    · simp only [Fs.find, hq, if_false] at h
      simp [ih h]

theorem exists_free_cand (fs : Fs) (p : RelPath) :
    ∃ k, 1 ≤ k ∧ k ≤ fs.length + 1 ∧ Fs.find fs (renameCand p k) = none := by
  by_contra hall
  push_neg at hall
  have hsub : (Finset.Icc 1 (fs.length + 1)).image (renameCand p) ⊆
      (fs.map Prod.fst).toFinset := by
    intro q hq
    rcases Finset.mem_image.1 hq with ⟨k, hk, rfl⟩
    rcases Finset.mem_Icc.1 hk with ⟨hk1, hk2⟩
    exact List.mem_toFinset.2 (find_ne_none_mem_keys fs _ (hall k hk1 hk2))
  have hcard1 : ((Finset.Icc 1 (fs.length + 1)).image (renameCand p)).card =
      fs.length + 1 := by
    rw [Finset.card_image_of_injective _ (renameCand_injective p), Nat.card_Icc]
    omega
  have hcard2 : (fs.map Prod.fst).toFinset.card ≤ fs.length := by
    calc (fs.map Prod.fst).toFinset.card ≤ (fs.map Prod.fst).length :=
          fs.map Prod.fst |>.toFinset_card_le
      _ = fs.length := List.length_map _ _
  have := Finset.card_le_card hsub
  omega

theorem uniqueNameAux_spec (fs : Fs) (p : RelPath) :
    ∀ fuel k, (∃ j, k ≤ j ∧ j < k + fuel ∧ Fs.find fs (renameCand p j) = none) →
      ∃ j, k ≤ j ∧ uniqueNameAux fs p fuel k = renameCand p j ∧
        Fs.find fs (renameCand p j) = none ∧
        ∀ i, k ≤ i → i < j → Fs.find fs (renameCand p i) ≠ none := by
  intro fuel
  induction fuel with
  | zero =>
    intro k ⟨j, hj1, hj2, _⟩
    omega
  | succ fuel ih =>
    intro k hex
    by_cases hk : Fs.find fs (renameCand p k) = none
    · exact ⟨k, Nat.le_refl k, by simp [uniqueNameAux, hk], hk, fun i h1 h2 => by omega⟩
    · rcases hex with ⟨j, hj1, hj2, hj3⟩
      have hjk : j ≠ k := fun hjeq => hk (hjeq ▸ hj3)
      rcases ih (k + 1) ⟨j, by omega, by omega, hj3⟩ with ⟨j', hj'1, hj'2, hj'3, hj'4⟩
      refine ⟨j', by omega, ?_, hj'3, ?_⟩
      · simp [uniqueNameAux, hk, hj'2]
      · intro i h1 h2
        by_cases hik : i = k
        · exact hik ▸ hk
        · exact hj'4 i (by omega) h2

theorem uniqueName_spec (fs : Fs) (p : RelPath) :
    ∃ k, 1 ≤ k ∧ uniqueName fs p = renameCand p k ∧
      Fs.find fs (renameCand p k) = none ∧
      ∀ i, 1 ≤ i → i < k → Fs.find fs (renameCand p i) ≠ none := by
  rcases exists_free_cand fs p with ⟨k, hk1, hk2, hk3⟩
  exact uniqueNameAux_spec fs p (fs.length + 1) 1 ⟨k, hk1, by omega, hk3⟩

theorem uniqueName_free (fs : Fs) (p : RelPath) :
    Fs.find fs (uniqueName fs p) = none := by
  rcases uniqueName_spec fs p with ⟨k, _, heq, hfree, _⟩
  rw [heq]; exact hfree

theorem renameCand_ne (p : RelPath) (k : Nat) : renameCand p k ≠ p := by
  intro h
  have hstem : p.stem ++ "_" ++ Nat.repr k = p.stem := congrArg RelPath.stem h
  have := congrArg String.length hstem
  simp only [String.length_append] at this
  have h1 : ("_" : String).length = 1 := rfl
  omega

/-! ### Basic state-machine lemmas -/

theorem mem_addHash (h : Content) (idx : List Content) : h ∈ addHash h idx := by
  unfold addHash
  by_cases hm : h ∈ idx <;> simp [hm]

theorem addHash_subset (h : Content) (idx : List Content) : idx ⊆ addHash h idx := by
  unfold addHash
  by_cases hm : h ∈ idx <;> simp [hm, List.subset_cons_self]

theorem mem_addHash_elim {h' h : Content} {idx : List Content}
    (hm : h' ∈ addHash h idx) : h' ∈ idx ∨ h' = h := by
  unfold addHash at hm
  by_cases hmem : h ∈ idx
  · simp only [hmem, if_true] at hm; exact Or.inl hm
  · simp only [hmem, if_false, List.mem_cons] at hm
    exact hm.elim (fun h => Or.inr h) Or.inl

/-- A hash that `calculate_md5` returns is the file's content (and the file
is readable). -/
theorem calculate_md5_eq_some {e : FileEntry} {h : Content}
    (hm : calculate_md5 e = some h) : e.content = h ∧ e.readable = true := by
  unfold calculate_md5 at hm
  by_cases hr : e.readable
  · simp only [hr, if_true, Option.some.injEq] at hm; exact ⟨hm, hr⟩
  · simp [hr] at hm

/-- Copies never overwrite: a binding visible before a `processFile` step is
visible, unchanged, after it. -/
theorem processFile_find_preserved (st : MergerSt) (f : RelPath × FileEntry)
    (q : RelPath) (e : FileEntry) (hq : Fs.find st.targetFs q = some e) :
    Fs.find (processFile st f).1.targetFs q = some e := by
  unfold processFile
  cases hmd : calculate_md5 f.2 with
  | none => exact hq
  | some h =>
    by_cases hidx : h ∈ st.target_md5s
    · simp only [hidx, if_true]; exact hq
    · simp only [hidx, if_false]
      cases hfind : Fs.find st.targetFs f.1 with
      | some te =>
        by_cases hte : calculate_md5 te = some h
        · simp only [hte, if_true]; exact hq
        · simp only [hte, if_false, finishCopy, Fs.find]
          have hne : uniqueName st.targetFs f.1 ≠ q := by
            intro hc
            have hfree := uniqueName_free st.targetFs f.1
            rw [hc, hq] at hfree
            exact Option.noConfusion hfree
          simp [hne, hq]
      | none =>
        simp only [finishCopy, Fs.find]
        have hne : f.1 ≠ q := by
          intro hc
          rw [hc, hq] at hfind
          exact Option.noConfusion hfind
        simp [hne, hq]

theorem executeLoop_find_preserved (source : List (RelPath × FileEntry)) :
    ∀ (st : MergerSt) (q : RelPath) (e : FileEntry),
      Fs.find st.targetFs q = some e →
      Fs.find (executeLoop st source).1.targetFs q = some e := by
  induction source with
  | nil => intro st q e hq; exact hq
  | cons f fs ih =>
    intro st q e hq
    exact ih (processFile st f).1 q e (processFile_find_preserved st f q e hq)

theorem processFile_idx_mono (st : MergerSt) (f : RelPath × FileEntry) :
    st.target_md5s ⊆ (processFile st f).1.target_md5s := by
  unfold processFile
  cases hmd : calculate_md5 f.2 with
  | none => exact List.Subset.refl _
  | some h =>
    by_cases hidx : h ∈ st.target_md5s
    · simp only [hidx, if_true]; exact List.Subset.refl _
    · simp only [hidx, if_false]
      cases hfind : Fs.find st.targetFs f.1 with
      | some te =>
        by_cases hte : calculate_md5 te = some h
        · simp only [hte, if_true]; exact List.Subset.refl _
        · simp only [hte, if_false, finishCopy]; exact addHash_subset h _
      | none => simp only [finishCopy]; exact addHash_subset h _

theorem executeLoop_idx_mono (source : List (RelPath × FileEntry)) :
    ∀ st : MergerSt, st.target_md5s ⊆ (executeLoop st source).1.target_md5s := by
  induction source with
  | nil => intro st; exact List.Subset.refl _
  | cons f fs ih =>
    intro st
    exact List.Subset.trans (processFile_idx_mono st f) (ih (processFile st f).1)

theorem scanStep_idx_mono (st : MergerSt) (fe : RelPath × FileEntry) :
    st.target_md5s ⊆ (scanStep st fe).target_md5s := by
  unfold scanStep
  cases calculate_md5 fe.2 with
  | none => exact List.Subset.refl _
  | some h => exact addHash_subset h _

theorem scanFold_idx_mono (l : List (RelPath × FileEntry)) :
    ∀ st : MergerSt, st.target_md5s ⊆ (scanFold st l).target_md5s := by
  induction l with
  | nil => intro st; exact List.Subset.refl _
  | cons fe l ih =>
    intro st
    exact List.Subset.trans (scanStep_idx_mono st fe) (ih (scanStep st fe))

theorem executeLoop_append (pre post : List (RelPath × FileEntry)) :
    ∀ st : MergerSt,
      executeLoop st (pre ++ post) =
        ((executeLoop (executeLoop st pre).1 post).1,
         (executeLoop st pre).2 ++ (executeLoop (executeLoop st pre).1 post).2) := by
  induction pre with
  | nil => intro st; simp [executeLoop]
  | cons f fs ih => intro st; simp [executeLoop, ih]

theorem scanFold_append (pre post : List (RelPath × FileEntry)) (st : MergerSt) :
    scanFold st (pre ++ post) = scanFold (scanFold st pre) post := by
  simp [scanFold, List.foldl_append]

/-! ### Frame lemmas for logging, scanning and planning -/

theorem writeLog_idx (st : MergerSt) : (writeLog st).target_md5s = st.target_md5s := by
  unfold writeLog
  by_cases h : Fs.find st.targetFs st.logPath = some ⟨Content.logData, true⟩ <;> simp [h]

theorem writeLog_stats (st : MergerSt) : (writeLog st).stats = st.stats := by
  unfold writeLog
  by_cases h : Fs.find st.targetFs st.logPath = some ⟨Content.logData, true⟩ <;> simp [h]

theorem writeLog_find (st : MergerSt) (p : RelPath) (hp : p ≠ st.logPath) :
    Fs.find (writeLog st).targetFs p = Fs.find st.targetFs p := by
  unfold writeLog
  by_cases h : Fs.find st.targetFs st.logPath = some ⟨Content.logData, true⟩
  · simp [h]
  · have hne : st.logPath ≠ p := fun hc => hp hc.symm
    simp [h, Fs.find, hne]

theorem scanStep_targetFs (st : MergerSt) (fe : RelPath × FileEntry) :
    (scanStep st fe).targetFs = st.targetFs := by
  unfold scanStep
  cases calculate_md5 fe.2 <;> simp

theorem scanFold_targetFs (l : List (RelPath × FileEntry)) :
    ∀ st : MergerSt, (scanFold st l).targetFs = st.targetFs := by
  induction l with
  | nil => intro st; rfl
  | cons fe l ih =>
    intro st
    show (scanFold (scanStep st fe) l).targetFs = st.targetFs
    rw [ih, scanStep_targetFs]

theorem dryStep_st_targetFs (r : DryRunResult) (f : RelPath × FileEntry) :
    (dryStep r f).st.targetFs = r.st.targetFs := by
  unfold dryStep
  cases calculate_md5 f.2 with
  | none => rfl
  | some h => by_cases hm : h ∈ r.st.target_md5s <;> simp [hm]

theorem dryFold_st_targetFs (source : List (RelPath × FileEntry)) :
    ∀ r : DryRunResult, (source.foldl dryStep r).st.targetFs = r.st.targetFs := by
  induction source with
  | nil => intro r; rfl
  | cons f fs ih =>
    intro r
    show ((fs.foldl dryStep (dryStep r f))).st.targetFs = r.st.targetFs
    rw [ih, dryStep_st_targetFs]


/-! ### Equation lemmas for the copy loop -/

theorem executeLoop_nil (st : MergerSt) : executeLoop st [] = (st, []) := rfl

theorem executeLoop_cons (st : MergerSt) (f : RelPath × FileEntry)
    (fs : List (RelPath × FileEntry)) :
    executeLoop st (f :: fs) =
      ((executeLoop (processFile st f).1 fs).1,
       (processFile st f).2 :: (executeLoop (processFile st f).1 fs).2) := rfl

theorem processFile_none (st : MergerSt) (f : RelPath × FileEntry)
    (hmd : calculate_md5 f.2 = none) :
    processFile st f =
      ({ st with stats := { st.stats with errors := st.stats.errors + 1 } },
       Outcome.err) := by
  unfold processFile; rw [hmd]

theorem processFile_dup_idx (st : MergerSt) (f : RelPath × FileEntry) (h : Content)
    (hmd : calculate_md5 f.2 = some h) (hidx : h ∈ st.target_md5s) :
    processFile st f =
      ({ st with stats := { st.stats with duplicates := st.stats.duplicates + 1 } },
       Outcome.dup) := by
  unfold processFile; rw [hmd]; simp [hidx]

theorem processFile_dup_same (st : MergerSt) (f : RelPath × FileEntry) (h : Content)
    (te : FileEntry) (hmd : calculate_md5 f.2 = some h) (hidx : h ∉ st.target_md5s)
    (hfind : Fs.find st.targetFs f.1 = some te) (hte : calculate_md5 te = some h) :
    processFile st f =
      ({ st with stats := { st.stats with duplicates := st.stats.duplicates + 1 } },
       Outcome.dup) := by
  unfold processFile; rw [hmd]; simp [hidx, hfind, hte]

theorem processFile_rename (st : MergerSt) (f : RelPath × FileEntry) (h : Content)
    (te : FileEntry) (hmd : calculate_md5 f.2 = some h) (hidx : h ∉ st.target_md5s)
    (hfind : Fs.find st.targetFs f.1 = some te) (hte : calculate_md5 te ≠ some h) :
    processFile st f = finishCopy st f h (uniqueName st.targetFs f.1) := by
  unfold processFile; rw [hmd]; simp [hidx, hfind, hte]

theorem processFile_fresh (st : MergerSt) (f : RelPath × FileEntry) (h : Content)
    (hmd : calculate_md5 f.2 = some h) (hidx : h ∉ st.target_md5s)
    (hfind : Fs.find st.targetFs f.1 = none) :
    processFile st f = finishCopy st f h f.1 := by
  unfold processFile; rw [hmd]; simp [hidx, hfind]

/-- A hash present in the index after one copy-loop step was present before
it, or names content that the step just put into the target. -/
theorem processFile_idx_new (st : MergerSt) (g : RelPath × FileEntry) (h : Content)
    (hm : h ∈ (processFile st g).1.target_md5s) :
    h ∈ st.target_md5s ∨
    ∃ p e, Fs.find (processFile st g).1.targetFs p = some e ∧ e.content = h := by
  cases hmd : calculate_md5 g.2 with
  | none => rw [processFile_none st g hmd] at hm ⊢; exact Or.inl hm
  | some hg =>
    have hcontent : g.2.content = hg := (calculate_md5_eq_some hmd).1
    by_cases hidx : hg ∈ st.target_md5s
    · rw [processFile_dup_idx st g hg hmd hidx] at hm ⊢; exact Or.inl hm
    · cases hfind : Fs.find st.targetFs g.1 with
      | some te =>
        by_cases hte : calculate_md5 te = some hg
        · rw [processFile_dup_same st g hg te hmd hidx hfind hte] at hm ⊢
          exact Or.inl hm
        · rw [processFile_rename st g hg te hmd hidx hfind hte] at hm ⊢
          simp only [finishCopy] at hm ⊢
          rcases mem_addHash_elim hm with hold | hnew
          · exact Or.inl hold
          · refine Or.inr ⟨uniqueName st.targetFs g.1, g.2, ?_, hnew ▸ hcontent⟩
            simp [Fs.find]
      | none =>
        rw [processFile_fresh st g hg hmd hidx hfind] at hm ⊢
        simp only [finishCopy] at hm ⊢
        rcases mem_addHash_elim hm with hold | hnew
        · exact Or.inl hold
        · refine Or.inr ⟨g.1, g.2, ?_, hnew ▸ hcontent⟩
          simp [Fs.find]

/-- The progress-error invariant of one copy-loop step: `copied` never
decreases and `errors` absorbs every multiple of 100 that `copied`
crosses. -/
theorem processFile_progress_invariant (st : MergerSt) (f : RelPath × FileEntry) :
    st.stats.copied ≤ (processFile st f).1.stats.copied ∧
    st.stats.errors + (processFile st f).1.stats.copied / 100 ≤
      (processFile st f).1.stats.errors + st.stats.copied / 100 := by
  have hfc : ∀ h dest, st.stats.copied ≤ (finishCopy st f h dest).1.stats.copied ∧
      st.stats.errors + (finishCopy st f h dest).1.stats.copied / 100 ≤
        (finishCopy st f h dest).1.stats.errors + st.stats.copied / 100 := by
    intro h dest
    unfold finishCopy
    by_cases h100 : (st.stats.copied + 1) % 100 = 0 <;> simp only [h100, if_true, if_false] <;>
      constructor <;> omega
  cases hmd : calculate_md5 f.2 with
  | none => rw [processFile_none st f hmd]; dsimp only; omega
  | some h =>
    by_cases hidx : h ∈ st.target_md5s
    · rw [processFile_dup_idx st f h hmd hidx]; dsimp only; omega
    · cases hfind : Fs.find st.targetFs f.1 with
      | some te =>
        by_cases hte : calculate_md5 te = some h
        · rw [processFile_dup_same st f h te hmd hidx hfind hte]; dsimp only; omega
        · rw [processFile_rename st f h te hmd hidx hfind hte]; exact hfc h _
      | none => rw [processFile_fresh st f h hmd hidx hfind]; exact hfc h _

theorem executeLoop_progress_invariant (source : List (RelPath × FileEntry)) :
    ∀ st : MergerSt,
      st.stats.copied ≤ (executeLoop st source).1.stats.copied ∧
      st.stats.errors + (executeLoop st source).1.stats.copied / 100 ≤
        (executeLoop st source).1.stats.errors + st.stats.copied / 100 := by
  induction source with
  | nil => intro st; rw [executeLoop_nil]; dsimp only; omega
  | cons f fs ih =>
    intro st
    have h1 := processFile_progress_invariant st f
    have h2 := ih (processFile st f).1
    rw [executeLoop_cons]
    dsimp only
    constructor <;> omega

/-! ### Further frame lemmas for logging -/

theorem writeLog_logPath (st : MergerSt) : (writeLog st).logPath = st.logPath := by
  unfold writeLog
  by_cases h : Fs.find st.targetFs st.logPath = some ⟨Content.logData, true⟩ <;> simp [h]

theorem writeLog_writeLog (st : MergerSt) : writeLog (writeLog st) = writeLog st := by
  unfold writeLog
  by_cases h : Fs.find st.targetFs st.logPath = some ⟨Content.logData, true⟩
  · simp [h]
  · simp [h, Fs.find]

/-! ### Claim theorems -/

/-- C10: the MD5 index `self.target_md5s` only grows during a run: its only
mutations are the insertions of `scan_target`'s walk and of the copy loop's
post-copy step, so after any walk — and any extension of any walk — it is a
superset of what it was at any earlier point of the run. -/
theorem claim10_index_monotone (st : MergerSt)
    (l pre post : List (RelPath × FileEntry)) :
    st.target_md5s ⊆ (scanFold st l).target_md5s ∧
    (scanFold st pre).target_md5s ⊆ (scanFold st (pre ++ post)).target_md5s ∧
    st.target_md5s ⊆ (scanTarget st).target_md5s ∧
    st.target_md5s ⊆ (executeLoop st l).1.target_md5s ∧
    (executeLoop st pre).1.target_md5s ⊆ (executeLoop st (pre ++ post)).1.target_md5s := by
  refine ⟨scanFold_idx_mono l st, ?_, ?_, executeLoop_idx_mono l st, ?_⟩
  · rw [scanFold_append]
    exact scanFold_idx_mono post _
  · unfold scanTarget
    have hm := scanFold_idx_mono (writeLog st).targetFs (writeLog st)
    rwa [writeLog_idx] at hm
  · rw [executeLoop_append]
    exact executeLoop_idx_mono post _

/-- C9: Space Guard.  When the planned bytes exceed the reported free
space, the check `free < stats['total_size']` reports insufficiency, the
warned shortfall is the byte difference `total_size - free`, and the
insufficiency does not by itself block execution: with the user confirming
both prompts, `execute` proceeds into the copy loop exactly as if space
were plentiful. -/
theorem claim9_space_guard (st : MergerSt) (source : List (RelPath × FileEntry))
    (freeBytes : Nat) (hlt : freeBytes < st.stats.total_size) :
    spaceSufficient freeBytes st.stats.total_size = false ∧
    spaceShortfall freeBytes st.stats.total_size = st.stats.total_size - freeBytes ∧
    execute st source freeBytes true true =
      (true, (executeLoop (writeLog st) source).1, (executeLoop (writeLog st) source).2) := by
  refine ⟨?_, rfl, ?_⟩
  · simp [spaceSufficient, hlt]
  · simp [execute]

/-- C9 witness: 10 GB to copy against 5 GB reported free yields
`sufficient = false` with a 5 GB shortfall. -/
theorem claim9_space_guard_witness :
    spaceSufficient (5 * 1024 ^ 3) st10GB.stats.total_size = false ∧
    spaceShortfall (5 * 1024 ^ 3) st10GB.stats.total_size = 5 * 1024 ^ 3 := by
  have h := claim9_space_guard st10GB [] (5 * 1024 ^ 3) (by norm_num [st10GB])
  exact ⟨h.1, h.2.1.trans (by norm_num [st10GB])⟩

/-- C6 is wrong about the planning pass: in `dry_run` a file whose hash
cannot be computed is skipped by the `if md5:` guard without touching any
counter.  On a source holding one unreadable file, the dry run ends with
`errors = 0`, not 1 — the file is only excluded from both classification
lists. -/
theorem claim6_counterexample :
    (mainDryRun logP [] [badFile]).st.stats.errors = 0 ∧
    (mainDryRun logP [] [badFile]).st.stats.source_files = 0 ∧
    (mainDryRun logP [] [badFile]).duplicates = [] ∧
    (mainDryRun logP [] [badFile]).to_copy = [] := by decide

/-- C6 amended: `calculate_md5` returns the distinguished failure `none`
for a file that cannot be read; the execute pass counts that file as an
error and leaves everything else untouched (so it is neither a duplicate
nor copied, and no size is accumulated); the dry-run pass also excludes it
from both classifications and accumulates nothing for it, but — unlike the
claim says — it leaves the error counter untouched there. -/
theorem claim6_hash_failure (st : MergerSt) (r : DryRunResult)
    (f : RelPath × FileEntry) (hf : f.2.readable = false) :
    calculate_md5 f.2 = none ∧
    processFile st f =
      ({ st with stats := { st.stats with errors := st.stats.errors + 1 } },
       Outcome.err) ∧
    dryStep r f = r := by
  have hmd : calculate_md5 f.2 = none := by simp [calculate_md5, hf]
  refine ⟨hmd, processFile_none st f hmd, ?_⟩
  unfold dryStep
  rw [hmd]

/-- C6 amended, instantiated on an unreadable file and a fresh merger. -/
theorem claim6_hash_failure_witness :
    calculate_md5 badFile.2 = none ∧
    processFile stFresh badFile =
      ({ stFresh with stats := { stFresh.stats with errors := stFresh.stats.errors + 1 } },
       Outcome.err) ∧
    dryStep rFresh badFile = rFresh :=
  claim6_hash_failure stFresh rFresh badFile rfl

/-- C7 is wrong: dry-run writes under the target root.  Its first log line
creates `merge_<timestamp>.log` inside the target: starting from an empty
target tree (where the log path resolves to nothing), the log path resolves
to a file after the run — the target tree was mutated. -/
theorem claim7_counterexample :
    Fs.find (mainDryRun logP [] []).st.targetFs logP = some ⟨Content.logData, true⟩ ∧
    Fs.find ([] : Fs) logP = none := by decide

/-- C7 amended: apart from its own log file `merge_<timestamp>.log` under
the target root (which `self.log` creates and appends to), dry-run mutates
nothing: every other path resolves after the run exactly as before.  (The
source tree is input-only in the model, as in the code, which never opens a
source file for writing.) -/
theorem claim7_read_only_except_log (source : List (RelPath × FileEntry))
    (st : MergerSt) (p : RelPath) (hp : p ≠ st.logPath) :
    Fs.find (dry_run source st).st.targetFs p = Fs.find st.targetFs p := by
  unfold dry_run
  rw [dryFold_st_targetFs]
  dsimp only
  unfold scanTarget
  rw [scanFold_targetFs, writeLog_writeLog, writeLog_find st p hp]

/-- C7 amended, instantiated: a path other than the log file is unchanged
by a concrete dry run. -/
theorem claim7_read_only_except_log_witness :
    Fs.find (dry_run [fileA] stFresh).st.targetFs fileA.1 =
      Fs.find stFresh.targetFs fileA.1 :=
  claim7_read_only_except_log [fileA] stFresh fileA.1 (by decide)

/-- The three ways `execute` can end: declined at a prompt (state is the
banner-logged one, nothing copied) or run through the copy loop. -/
theorem execute_result_cases (st : MergerSt) (source : List (RelPath × FileEntry))
    (freeBytes : Nat) (c1 c2 : Bool) :
    (execute st source freeBytes c1 c2).2.1 = writeLog st ∨
    (execute st source freeBytes c1 c2).2.1 = (executeLoop (writeLog st) source).1 := by
  unfold execute
  cases c1 <;> cases c2 <;>
    by_cases h : freeBytes < (writeLog st).stats.total_size <;> simp [h]

/-- C8: every copy that brings `copied` to a multiple of 100 triggers the
progress report, whose log line reads `self.source_files` — an attribute
`__init__` never creates and no method ever assigns — so it raises
`AttributeError`; the per-file handler catches it and counts it as an error
(modelled in `finishCopy`, after the copy, the index insertion and the
copied counter have taken effect).  Consequently an `--execute` run that
ends with 100 or more files copied has counted at least one error, even
when every hash computation and copy succeeded. -/
theorem claim8_progress_report_errors (logPath : RelPath) (targetFs : Fs)
    (source : List (RelPath × FileEntry)) (freeBytes : Nat) (c1 c2 : Bool)
    (h100 : 100 ≤ (mainExecute logPath targetFs source freeBytes c1 c2).2.1.stats.copied) :
    1 ≤ (mainExecute logPath targetFs source freeBytes c1 c2).2.1.stats.errors := by
  have hc := execute_result_cases ⟨logPath, targetFs, [], Stats.init⟩ source freeBytes c1 c2
  unfold mainExecute at h100 ⊢
  have hz : (⟨logPath, targetFs, [], Stats.init⟩ : MergerSt).stats.copied = 0 := rfl
  have hz2 : (⟨logPath, targetFs, [], Stats.init⟩ : MergerSt).stats.errors = 0 := rfl
  rcases hc with hcase | hcase <;> rw [hcase] at h100 ⊢
  · rw [writeLog_stats] at h100
    omega
  · have hinv :=
      (executeLoop_progress_invariant source (writeLog ⟨logPath, targetFs, [], Stats.init⟩)).2
    rw [writeLog_stats] at hinv
    omega

set_option maxRecDepth 4000 in
/-- C8 witness: 100 distinct new files through a fresh `--execute` run; the
run copies all 100 and, with every hash and copy succeeding, still reports
an error (raised by the progress report at the 100th copy). -/
theorem claim8_progress_report_errors_witness :
    1 ≤ (mainExecute logP [] manyFiles 0 true true).2.1.stats.errors :=
  claim8_progress_report_errors logP [] manyFiles 0 true true (by decide)

/-- C1 failing input, evaluated.  The target already holds `orig/x.bin`
with content Z, the source holds `copy/x.bin` with identical content at a
different relative path, yet `--execute` copies the file and counts no
duplicate: `main` runs `execute` on a fresh merger with an empty MD5 index
and `execute` never calls `scan_target`, so — against the claim and against
the program's own usage text, which promises "1. Scanne Zielverzeichnis,
sammle MD5s aller Dateien" before copying — no target index is ever built
in execute mode, and only the same-relative-path re-check can catch a
pre-existing duplicate. -/
theorem claim1_target_index_never_built :
    (mainExecute logP [origX] [copyX] 0 true true).2.1.stats.copied = 1 ∧
    (mainExecute logP [origX] [copyX] 0 true true).2.1.stats.duplicates = 0 ∧
    Fs.find (mainExecute logP [origX] [copyX] 0 true true).2.1.targetFs copyX.1 =
      some copyX.2 := by decide

/-- C2 failing input, evaluated.  Source `a.txt` and `b.txt` hold identical
content and the target starts empty.  The first `--execute` run copies
`a.txt` and classifies `b.txt` as a duplicate of it; the second run on the
unchanged pair copies `b.txt` again — 1 copy where the claim requires 0:
with no target scan the index starts empty again, the same-name re-check
only recognises `a.txt`, and nothing re-indexes `a.txt`'s content before
`b.txt` is processed. -/
theorem claim2_second_run_copies :
    (mainExecute logP [] [fileA, fileB] 0 true true).2.1.stats.copied = 1 ∧
    (mainExecute logP [] [fileA, fileB] 0 true true).2.1.stats.duplicates = 1 ∧
    (mainExecute logP
        (mainExecute logP [] [fileA, fileB] 0 true true).2.1.targetFs
        [fileA, fileB] 0 true true).2.1.stats.copied = 1 ∧
    (mainExecute logP
        (mainExecute logP [] [fileA, fileB] 0 true true).2.1.targetFs
        [fileA, fileB] 0 true true).2.1.stats.errors = 0 := by decide

/-- Projections of `finishCopy`: the copy conses the file at `dest`, the
hash is indexed, `copied` steps, `duplicates` is untouched, and the outcome
records the destination. -/
theorem finishCopy_facts (st : MergerSt) (f : RelPath × FileEntry) (h : Content)
    (dest : RelPath) :
    (finishCopy st f h dest).1.target_md5s = addHash h st.target_md5s ∧
    (finishCopy st f h dest).1.stats.copied = st.stats.copied + 1 ∧
    (finishCopy st f h dest).1.stats.duplicates = st.stats.duplicates ∧
    (finishCopy st f h dest).1.targetFs = (dest, f.2) :: st.targetFs ∧
    (finishCopy st f h dest).2 = Outcome.copiedTo dest := by
  unfold finishCopy
  by_cases h100 : (st.stats.copied + 1) % 100 = 0 <;> simp [h100]

/-- C4: within-run dedup.  In the claim's scenario — the source holds two
files with identical content and different names, and that content is
nowhere in the target nor in the index — the copy loop copies the first
file and classifies the second as a duplicate: the successful copy added
the source hash to the index before the second file was classified. -/
theorem claim4_within_run_dedup (st : MergerSt) (f1 f2 : RelPath × FileEntry)
    (hr1 : f1.2.readable = true) (hr2 : f2.2.readable = true)
    (hsame : f2.2.content = f1.2.content) (hnames : f1.1 ≠ f2.1)
    (hidx : f1.2.content ∉ st.target_md5s)
    (htgt : ∀ q e, Fs.find st.targetFs q = some e → e.content ≠ f1.2.content) :
    ∃ dest, (executeLoop st [f1, f2]).2 = [Outcome.copiedTo dest, Outcome.dup] ∧
      (executeLoop st [f1, f2]).1.stats.copied = st.stats.copied + 1 ∧
      (executeLoop st [f1, f2]).1.stats.duplicates = st.stats.duplicates + 1 := by
  have hmd1 : calculate_md5 f1.2 = some f1.2.content := by simp [calculate_md5, hr1]
  have hmd2 : calculate_md5 f2.2 = some f1.2.content := by
    simp [calculate_md5, hr2, hsame]
  have hstep1 : ∃ dest, processFile st f1 = finishCopy st f1 f1.2.content dest := by
    cases hfind : Fs.find st.targetFs f1.1 with
    | some te =>
      have hne : calculate_md5 te ≠ some f1.2.content := fun hc =>
        htgt f1.1 te hfind (calculate_md5_eq_some hc).1
      exact ⟨uniqueName st.targetFs f1.1,
        processFile_rename st f1 f1.2.content te hmd1 hidx hfind hne⟩
    | none => exact ⟨f1.1, processFile_fresh st f1 f1.2.content hmd1 hidx hfind⟩
  rcases hstep1 with ⟨dest, hstep1⟩
  have hfc := finishCopy_facts st f1 f1.2.content dest
  have hmem : f1.2.content ∈ (finishCopy st f1 f1.2.content dest).1.target_md5s := by
    rw [hfc.1]; exact mem_addHash _ _
  have hstep2 :=
    processFile_dup_idx (finishCopy st f1 f1.2.content dest).1 f2 f1.2.content hmd2 hmem
  refine ⟨dest, ?_, ?_, ?_⟩
  · rw [executeLoop_cons, hstep1, executeLoop_cons, hstep2, executeLoop_nil]
    dsimp only
    rw [hfc.2.2.2.2]
  · rw [executeLoop_cons, hstep1, executeLoop_cons, hstep2, executeLoop_nil]
    dsimp only
    exact hfc.2.1
  · rw [executeLoop_cons, hstep1, executeLoop_cons, hstep2, executeLoop_nil]
    dsimp only
    rw [hfc.2.2.1]

/-- C4 witness: `a.txt` and `b.txt` with identical content Z into an empty
target: the first is copied, the second deduplicated. -/
theorem claim4_within_run_dedup_witness :
    ∃ dest, (executeLoop stFresh [fileA, fileB]).2 = [Outcome.copiedTo dest, Outcome.dup] ∧
      (executeLoop stFresh [fileA, fileB]).1.stats.copied = stFresh.stats.copied + 1 ∧
      (executeLoop stFresh [fileA, fileB]).1.stats.duplicates =
        stFresh.stats.duplicates + 1 :=
  claim4_within_run_dedup stFresh fileA fileB rfl rfl rfl (by decide) (by decide)
    (fun q e hq => absurd hq (by simp [stFresh, Fs.find]))

/-- C5: name collision.  When the target already holds a file with
different content at the source file's relative path (and the source hash
is not indexed), the copy loop renames: the destination is the candidate
`stem_k suffix` in the same directory for the least `k ≥ 1` whose name is
unused — every earlier candidate is occupied — the source content lands
there, and the pre-existing file at the original path is untouched. -/
theorem claim5_collision_rename (st : MergerSt) (f : RelPath × FileEntry)
    (te : FileEntry) (hr : f.2.readable = true)
    (hfind : Fs.find st.targetFs f.1 = some te)
    (hdiff : te.content ≠ f.2.content)
    (hidx : f.2.content ∉ st.target_md5s) :
    ∃ k, 1 ≤ k ∧
      (executeLoop st [f]).2 = [Outcome.copiedTo (renameCand f.1 k)] ∧
      Fs.find st.targetFs (renameCand f.1 k) = none ∧
      (∀ i, 1 ≤ i → i < k → Fs.find st.targetFs (renameCand f.1 i) ≠ none) ∧
      Fs.find (executeLoop st [f]).1.targetFs (renameCand f.1 k) = some f.2 ∧
      Fs.find (executeLoop st [f]).1.targetFs f.1 = some te := by
  have hmd : calculate_md5 f.2 = some f.2.content := by simp [calculate_md5, hr]
  have hte : calculate_md5 te ≠ some f.2.content := fun hc =>
    hdiff (calculate_md5_eq_some hc).1
  have hstep := processFile_rename st f f.2.content te hmd hidx hfind hte
  rcases uniqueName_spec st.targetFs f.1 with ⟨k, hk1, hkeq, hkfree, hkmin⟩
  have hfc := finishCopy_facts st f f.2.content (uniqueName st.targetFs f.1)
  refine ⟨k, hk1, ?_, hkfree, hkmin, ?_, ?_⟩
  · rw [executeLoop_cons, hstep, executeLoop_nil]
    dsimp only
    rw [hfc.2.2.2.2, hkeq]
  · rw [executeLoop_cons, hstep, executeLoop_nil]
    dsimp only
    rw [hfc.2.2.2.1, ← hkeq]
    simp [Fs.find]
  · rw [executeLoop_cons, hstep, executeLoop_nil]
    dsimp only
    rw [hfc.2.2.2.1]
    have hne : uniqueName st.targetFs f.1 ≠ f.1 := by
      rw [hkeq]; exact renameCand_ne f.1 k
    simp [Fs.find, hne, hfind]

/-- C5 witness: target `a.txt` = "X", source `a.txt` = "Y": the run leaves
`a.txt` untouched and lands "Y" at the least free candidate; the first
candidate name is `a_1.txt`. -/
theorem claim5_collision_rename_witness :
    (∃ k, 1 ≤ k ∧
      (executeLoop stTgtA [srcA]).2 = [Outcome.copiedTo (renameCand srcA.1 k)] ∧
      Fs.find stTgtA.targetFs (renameCand srcA.1 k) = none ∧
      (∀ i, 1 ≤ i → i < k → Fs.find stTgtA.targetFs (renameCand srcA.1 i) ≠ none) ∧
      Fs.find (executeLoop stTgtA [srcA]).1.targetFs (renameCand srcA.1 k) = some srcA.2 ∧
      Fs.find (executeLoop stTgtA [srcA]).1.targetFs srcA.1 = some tgtA.2) ∧
    renameCand srcA.1 1 = ⟨"", "a_1", ".txt"⟩ :=
  ⟨claim5_collision_rename stTgtA srcA tgtA.2 rfl (by decide) (by decide) (by decide),
   by decide⟩

/-- C3: no source file is silently lost.  For the copy loop over any
source list, each source file either has its content present in the final
target tree (at its original relative path or a renamed variant), or its
hash was already in the duplicate index when the loop started, or its
outcome is `Outcome.err` — the branch that increments `stats['errors']`. -/
theorem claim3_no_file_lost (source : List (RelPath × FileEntry)) :
    ∀ (st : MergerSt) (i : Nat) (f : RelPath × FileEntry), source[i]? = some f →
      (∃ p e, Fs.find (executeLoop st source).1.targetFs p = some e ∧
          e.content = f.2.content) ∨
      (∃ h, calculate_md5 f.2 = some h ∧ h ∈ st.target_md5s) ∨
      (executeLoop st source).2[i]? = some Outcome.err := by
  induction source with
  | nil => intro st i f hf; simp at hf
  | cons g gs ih =>
    intro st i f hf
    cases i with
    | zero =>
      simp only [List.getElem?_cons_zero, Option.some.injEq] at hf
      subst hf
      cases hmd : calculate_md5 g.2 with
      | none =>
        right; right
        rw [executeLoop_cons, processFile_none st g hmd]
        simp
      | some h =>
        by_cases hidx : h ∈ st.target_md5s
        · exact Or.inr (Or.inl ⟨h, rfl, hidx⟩)
        · have hcontent : g.2.content = h := (calculate_md5_eq_some hmd).1
          cases hfind : Fs.find st.targetFs g.1 with
          | some te =>
            by_cases hte : calculate_md5 te = some h
            · left
              have htec : te.content = h := (calculate_md5_eq_some hte).1
              refine ⟨g.1, te, ?_, by rw [htec, hcontent]⟩
              rw [executeLoop_cons]
              dsimp only
              apply executeLoop_find_preserved gs
              rw [processFile_dup_same st g h te hmd hidx hfind hte]
              exact hfind
            · left
              have hfc := finishCopy_facts st g h (uniqueName st.targetFs g.1)
              refine ⟨uniqueName st.targetFs g.1, g.2, ?_, rfl⟩
              rw [executeLoop_cons]
              dsimp only
              apply executeLoop_find_preserved gs
              rw [processFile_rename st g h te hmd hidx hfind hte, hfc.2.2.2.1]
              simp [Fs.find]
          | none =>
            left
            have hfc := finishCopy_facts st g h g.1
            refine ⟨g.1, g.2, ?_, rfl⟩
            rw [executeLoop_cons]
            dsimp only
            apply executeLoop_find_preserved gs
            rw [processFile_fresh st g h hmd hidx hfind, hfc.2.2.2.1]
            simp [Fs.find]
    | succ i =>
      simp only [List.getElem?_cons_succ] at hf
      rcases ih (processFile st g).1 i f hf with hleft | hmid | herr
      · left
        rw [executeLoop_cons]
        dsimp only
        exact hleft
      · rcases hmid with ⟨h, hmd, hmem⟩
        rcases processFile_idx_new st g h hmem with hold | ⟨p, e, hfound, hcont⟩
        · exact Or.inr (Or.inl ⟨h, hmd, hold⟩)
        · left
          rw [executeLoop_cons]
          dsimp only
          refine ⟨p, e, executeLoop_find_preserved gs (processFile st g).1 p e hfound, ?_⟩
          rw [hcont]
          exact ((calculate_md5_eq_some hmd).1).symm
      · right; right
        rw [executeLoop_cons]
        simpa using herr

/-- C3 instantiated: fresh state, one readable new file. -/
theorem claim3_no_file_lost_witness :
    (∃ p e, Fs.find (executeLoop stFresh [fileA]).1.targetFs p = some e ∧
        e.content = fileA.2.content) ∨
    (∃ h, calculate_md5 fileA.2 = some h ∧ h ∈ stFresh.target_md5s) ∨
    (executeLoop stFresh [fileA]).2[0]? = some Outcome.err :=
  claim3_no_file_lost [fileA] stFresh 0 fileA rfl
